import Mathlib

/-!
Verification of the core algorithms of the mbh-dashboard repository
(`src/static/paths.js` and `src/static/dashboard.js`).

The JavaScript code is shallowly embedded: texts and tokens are lists of
characters, JS objects with optional fields are structures with `Option`
fields, JS `Set`s are lists with membership testing, and JS `||` defaults
are modelled by explicit functions mirroring JS truthiness (for strings
only `""` is falsy, for numbers only `0`; arrays and objects are always
truthy).  Floating point similarity scores are modelled by rationals, and
`Number.prototype.toFixed(1)` by rounding to one decimal in `ℚ`.
-/

namespace MBH

/-! ## JS primitives -/

/-- JS whitespace (the characters of `\s` restricted to the ASCII range;
the Sanskrit data never contains the exotic Unicode space separators). -/
def jsIsWS (c : Char) : Bool :=
  c == ' ' || c == '\t' || c == '\n' || c == '\r' || c == '\x0b' || c == '\x0c'

/-- JS `a || b` on strings: `""` is the only falsy string. -/
def jsOrStr (a b : String) : String :=
  if a == "" then b else a

/-- JS `a || b` where `a` is a possibly-absent string field
(`undefined` and `""` are falsy). -/
def jsOrOptStr (o : Option String) (d : String) : String :=
  match o with
  | none => d
  | some s => if s == "" then d else s

/-- JS `a || b` where `a` is a possibly-absent number field
(`undefined` and `0` are falsy). -/
def jsOrOptInt (o : Option Int) (d : Int) : Int :=
  match o with
  | none => d
  | some n => if n == 0 then d else n

/-- JS truthiness of a possibly-absent string field. -/
def jsTruthyStr (o : Option String) : Bool :=
  match o with
  | none => false
  | some s => !(s == "")

/-- `String.prototype.padStart(n, c)`. -/
def padStart (s : String) (n : Nat) (c : Char) : String :=
  if n ≤ s.length then s else String.mk (List.replicate (n - s.length) c) ++ s

/-! ## Tokenizer (`dashboard.js`, `computeDiff`, lines 674-683)

`text.replace(/।/g,' । ').replace(/॥/g,' ॥ ').replace(/\s+/g,' ')
     .trim().split(' ').filter(t => t.length > 0)` -/

/-- `.replace(/।/g, ' । ')`. -/
def replaceDanda1 (l : List Char) : List Char :=
  l.flatMap (fun c => if c == '।' then [' ', '।', ' '] else [c])

/-- `.replace(/॥/g, ' ॥ ')`. -/
def replaceDanda2 (l : List Char) : List Char :=
  l.flatMap (fun c => if c == '॥' then [' ', '॥', ' '] else [c])

/-- Worker for `.replace(/\s+/g, ' ')`: the flag records whether the
previous character was part of a whitespace run (whose replacement `' '`
has already been emitted). -/
def collapseWSAux : Bool → List Char → List Char
  | _, [] => []
  | b, c :: cs =>
    if jsIsWS c then
      if b then collapseWSAux true cs else ' ' :: collapseWSAux true cs
    else
      c :: collapseWSAux false cs

/-- `.replace(/\s+/g, ' ')`. -/
def collapseWS (l : List Char) : List Char := collapseWSAux false l

/-- Left half of `.trim()`. -/
def trimLeft (l : List Char) : List Char := l.dropWhile jsIsWS

/-- Right half of `.trim()`. -/
def trimRight (l : List Char) : List Char := (l.reverse.dropWhile jsIsWS).reverse

/-- `.trim()`. -/
def jsTrim (l : List Char) : List Char := trimRight (trimLeft l)

/-- `.split(sep)` for a one-character separator, keeping empty pieces,
like JS `String.prototype.split`: each separator occurrence ends the
current (possibly empty) piece.  (`jsSplit` never returns `[]`, so the
`[[c]]` branch is unreachable.) -/
def jsSplit (p : Char → Bool) : List Char → List (List Char)
  | [] => [[]]
  | c :: cs =>
    if p c then [] :: jsSplit p cs
    else
      match jsSplit p cs with
      | [] => [[c]]
      | w :: rest => (c :: w) :: rest

/-- The tokenizer of `computeDiff`. -/
def tokenize (text : List Char) : List (List Char) :=
  (jsSplit (fun c => c == ' ')
      (jsTrim (collapseWS (replaceDanda2 (replaceDanda1 text))))).filter
    (fun t => 0 < t.length)

/-- `Array.prototype.join(' ')`. -/
def jsJoinSp : List (List Char) → List Char
  | [] => []
  | [w] => w
  | w :: x :: t => w ++ ' ' :: jsJoinSp (x :: t)

/-! ## `normalizeWord` (`dashboard.js`, lines 781-789) -/

/-- Characters of the class `[।॥\d०१२३४५६७८९]` removed by `normalizeWord`. -/
def isRemovedChar (c : Char) : Bool :=
  c == '।' || c == '॥' || c.isDigit ||
    ['०', '१', '२', '३', '४', '५', '६', '७', '८', '९'].contains c

/-- `.replace(/ं/g, 'म्')`: the anusvara expands to the two code points of
`म्`. -/
def expandAnusvara (c : Char) : List Char :=
  if c == 'ं' then ['म', '्'] else [c]

/-- The chain
`.replace(/[।॥\d०१२३४५६७८९]/g,'').replace(/ं/g,'म्').replace(/ः/g,'').trim().toLowerCase()`
of `normalizeWord` (`String.prototype.toLowerCase` acts as `Char.toLower`
on each character for the basic latin range; no character of this data is
affected outside that range). -/
def normCore (w : List Char) : List Char :=
  (jsTrim (((w.filter (fun c => !isRemovedChar c)).flatMap expandAnusvara).filter
      (fun c => !(c == 'ः')))).map Char.toLower

/-- `normalizeWord`, including the `if (!word) return ''` guard. -/
def normalizeWord (w : List Char) : List Char :=
  if w.isEmpty then [] else normCore w

/-! ## Diff engine (`dashboard.js`, lines 669-776) -/

/-- Classification a token receives in the rendered diff: wrapped in a
`diff-match` span, wrapped in a `diff-different` span, or emitted bare. -/
inductive Mark where
  | matching
  | different
  | unannotated
deriving DecidableEq

/-- `['।', '॥'].includes(word) || /^[०-९0-9]+$/.test(word)`: the guard under
which both strategies pass a token through unannotated. -/
def skipToken (w : List Char) : Bool :=
  w == ['।'] || w == ['॥'] ||
    (!w.isEmpty && w.all (fun c => ('०' ≤ c && c ≤ '९') || ('0' ≤ c && c ≤ '9')))

/-- `shloka.metadata.alignment` as supplied by the pipeline. -/
structure Alignment where
  source_words : Option (List (List Char)) := none
  target_words : Option (List (List Char)) := none
  matched_positions : Option (List Nat) := none
  source_matched_positions : Option (List Nat) := none
deriving DecidableEq

/-- `new Set(alignment.source_matched_positions || alignment.matched_positions || [])`
(arrays are always truthy). -/
def alignPositions (a : Alignment) : List Nat :=
  match a.source_matched_positions with
  | some l => l
  | none =>
    match a.matched_positions with
    | some l => l
    | none => []

/-- The body of `sourceWords.map((word, idx) => ...)` in `diffWithAlignment`,
carrying the running index. -/
def annotatePosAux (pos : List Nat) (i : Nat) : List (List Char) → List (List Char × Mark)
  | [] => []
  | w :: ws =>
    (w,
      if skipToken w then Mark.unannotated
      else if pos.contains i then Mark.matching
      else Mark.different) :: annotatePosAux pos (i + 1) ws

/-- Source-side annotation of `diffWithAlignment`. -/
def annotateByPositions (pos : List Nat) (ws : List (List Char)) : List (List Char × Mark) :=
  annotatePosAux pos 0 ws

/-- `new Set(words.map(w => normalizeWord(w)).filter(w => w.length > 0))`. -/
def normSet (ws : List (List Char)) : List (List Char) :=
  (ws.map normalizeWord).filter (fun w => 0 < w.length)

/-- The body of `words.map(word => ...)` shared by the set-membership
annotated sides of both strategies. -/
def annotateBySet (set : List (List Char)) (ws : List (List Char)) : List (List Char × Mark) :=
  ws.map (fun w =>
    (w,
      if skipToken w then Mark.unannotated
      else if set.contains (normalizeWord w) then Mark.matching
      else Mark.different))

/-- A diff result: each side is the token sequence with its marks (the JS
code renders this directly to an HTML string). -/
structure DiffResult where
  sourceAnnotated : List (List Char × Mark)
  targetAnnotated : List (List Char × Mark)
deriving DecidableEq

/-- `diffWithAlignment` (lines 703-741). -/
def diffWithAlignment (sourceWords targetWords : List (List Char)) (a : Alignment) :
    DiffResult where
  sourceAnnotated := annotateByPositions (alignPositions a) sourceWords
  targetAnnotated :=
    annotateBySet
      (normSet (match a.source_words with | some l => l | none => sourceWords))
      targetWords

/-- `diffWithLCS` (lines 746-776): set-membership diff on both sides. -/
def diffWithLCS (sourceWords targetWords : List (List Char)) : DiffResult where
  sourceAnnotated := annotateBySet (normSet targetWords) sourceWords
  targetAnnotated := annotateBySet (normSet sourceWords) targetWords

/-! ## Records -/

/-- `shloka.metadata`. -/
structure Metadata where
  alignment : Option Alignment := none
deriving DecidableEq

/-- A verse record as consumed by the dashboard.  Hierarchy fields are
strings, texts are character lists, absent JSON fields are `none`. -/
structure Shloka where
  id : Option String := none
  source_id : Option String := none
  book : Option Int := none
  chapter : Option Int := none
  verse : Option Int := none
  parva_id : Option String := none
  parva_name : Option String := none
  upaparva_id : Option String := none
  upaparva_name : Option String := none
  adhyaya_id : Option String := none
  adhyaya_name : Option String := none
  has_match : Bool := false
  similarity : Option ℚ := none
  match_corpus : Option String := none
  many_to_one : Bool := false
  one_to_many : Bool := false
  source_text : Option (List Char) := none
  matched_target_text : Option (List Char) := none
  metadata : Option Metadata := none
deriving DecidableEq

/-- The test `alignment && alignment.target_words && alignment.matched_positions`
of `computeDiff` (arrays and objects are truthy whenever present). -/
def hasAlignmentInfo (s : Shloka) : Bool :=
  match s.metadata with
  | none => false
  | some m =>
    match m.alignment with
    | none => false
    | some a => a.target_words.isSome && a.matched_positions.isSome

/-- `computeDiff` (lines 669-698).  `source_text || ''` and
`matched_target_text || ''` both yield `[]` for an absent or empty text. -/
def computeDiff (shloka : Shloka) : DiffResult :=
  let sourceWords := tokenize (shloka.source_text.getD [])
  let targetWords := tokenize (shloka.matched_target_text.getD [])
  match shloka.metadata with
  | none => diffWithLCS sourceWords targetWords
  | some m =>
    match m.alignment with
    | none => diffWithLCS sourceWords targetWords
    | some a =>
      if a.target_words.isSome && a.matched_positions.isSome then
        diffWithAlignment sourceWords targetWords a
      else
        diffWithLCS sourceWords targetWords

/-! ## Statistics aggregator (`dashboard.js`, `buildHierarchy`, lines 69-95) -/

/-- `s.similarity >= 0.9` with JS semantics: `undefined >= 0.9` is false. -/
def simGE (o : Option ℚ) (q : ℚ) : Bool :=
  match o with
  | none => false
  | some s => q ≤ s

/-- `s.similarity < 0.9` with JS semantics: `undefined < 0.9` is false. -/
def simLT (o : Option ℚ) (q : ℚ) : Bool :=
  match o with
  | none => false
  | some s => s < q

/-- `Number.prototype.toFixed(1)` modelled as exact rounding to one decimal
place in `ℚ`. -/
def roundTo1 (q : ℚ) : ℚ := (⌊q * 10 + 1 / 2⌋ : ℚ) / 10

/-- The fixed-shape `this.stats` object. -/
structure AggStats where
  total : Nat
  allMatched : Nat
  unmatched : Nat
  highConfidence : Nat
  partialCount : Nat
  mndutt : Nat
  ce : Nat
  sarit : Nat
  manyToOne : Nat
  oneToMany : Nat
  matched : Nat
  matchRate : ℚ
deriving DecidableEq

/-- The statistics aggregation of `buildHierarchy` (the `partial` counter is
called `partialCount` here because `partial` is a Lean keyword). -/
def aggregateStats (data : List Shloka) : AggStats :=
  let total := data.length
  let allMatched := (data.filter (fun s => s.has_match)).length
  let highConfidence :=
    (data.filter (fun s => s.has_match && simGE s.similarity (9 / 10))).length
  { total := total
    allMatched := allMatched
    unmatched := (data.filter (fun s => !s.has_match)).length
    highConfidence := highConfidence
    partialCount :=
      (data.filter (fun s => s.has_match && simLT s.similarity (9 / 10))).length
    mndutt := (data.filter (fun s => s.match_corpus == some "mndutt")).length
    ce := (data.filter (fun s => s.match_corpus == some "ce")).length
    sarit := (data.filter (fun s => s.match_corpus == some "sarit")).length
    manyToOne := (data.filter (fun s => s.many_to_one)).length
    oneToMany := (data.filter (fun s => s.one_to_many)).length
    matched := highConfidence
    matchRate :=
      if 0 < total then roundTo1 (((allMatched : ℚ) / (total : ℚ)) * 100) else 0 }

/-! ## Hierarchy builder (`paths.js`, lines 111-138 and 180-235) -/

/-- Result of `parseSrirangaHierarchy`. -/
structure ParsedHierarchy where
  book : Int
  parva : String
  parvaName : String
  upaparva : String
  upaparvaName : String
  adhyaya : String
  adhyayaName : String
  verseNumeric : Int
deriving DecidableEq

/-- `parseSrirangaHierarchy` (lines 111-138): use the explicit hierarchy ids
when all three are present (JS-truthy), otherwise synthesize keys from the
chapter number.  `Math.floor` on the (possibly negative) quotient is integer
floor division. -/
def parseSrirangaHierarchy (s : Shloka) : ParsedHierarchy :=
  if jsTruthyStr s.parva_id && jsTruthyStr s.upaparva_id && jsTruthyStr s.adhyaya_id then
    { book := jsOrOptInt s.book 1
      parva := s.parva_id.getD ""
      parvaName := jsOrOptStr s.parva_name (s.parva_id.getD "")
      upaparva := s.upaparva_id.getD ""
      upaparvaName := jsOrOptStr s.upaparva_name (s.upaparva_id.getD "")
      adhyaya := s.adhyaya_id.getD ""
      adhyayaName := jsOrOptStr s.adhyaya_name (s.adhyaya_id.getD "")
      verseNumeric := jsOrOptInt s.verse 0 }
  else
    let chapter := jsOrOptInt s.chapter 0
    let un : Int := (chapter - 1).fdiv 10 + 1
    { book := jsOrOptInt s.book 1
      parva := "P01"
      parvaName := "Adi Parva"
      upaparva := "U" ++ padStart (toString un) 2 '0'
      upaparvaName := "Upaparva " ++ toString un
      adhyaya := "A" ++ padStart (toString chapter) 3 '0'
      adhyayaName := "Adhyaya " ++ toString chapter
      verseNumeric := jsOrOptInt s.verse 0 }

/-- A `{matched, unmatched, total}` stats record. -/
structure Stats where
  matched : Nat
  unmatched : Nat
  total : Nat
deriving DecidableEq

/-- Leaf node: `{shlokas: [...], stats, name}`. -/
structure AdhyayaNode where
  shlokas : List Shloka
  stats : Stats
  name : String
deriving DecidableEq

/-- Middle node: `{adhyayas: {...}, stats, name}`. -/
structure UpaparvaNode where
  adhyayas : List (String × AdhyayaNode)
  stats : Stats
  name : String
deriving DecidableEq

/-- Top node: `{upaparvas: {...}, stats, name}`. -/
structure ParvaNode where
  upaparvas : List (String × UpaparvaNode)
  stats : Stats
  name : String
deriving DecidableEq

/-- The hierarchy object, keyed by parva id.  JS objects are modelled as
association lists in insertion order. -/
abbrev Hierarchy := List (String × ParvaNode)

/-- Create-if-absent followed by an in-place update of a JS object entry:
`if (!o[k]) o[k] = init; f(o[k])`. -/
def updateA {α : Type} (k : String) (init : α) (f : α → α) :
    List (String × α) → List (String × α)
  | [] => [(k, f init)]
  | (k₁, v) :: rest =>
    if k₁ = k then (k₁, f v) :: rest else (k₁, v) :: updateA k init f rest

/-- `stats.total++` plus `stats.matched++` or `stats.unmatched++`. -/
def bumpStats (isMatched : Bool) (st : Stats) : Stats :=
  { matched := if isMatched then st.matched + 1 else st.matched
    unmatched := if isMatched then st.unmatched else st.unmatched + 1
    total := st.total + 1 }

/-- A freshly created adhyaya entry. -/
def initAdhyaya (name : String) : AdhyayaNode := ⟨[], ⟨0, 0, 0⟩, name⟩

/-- A freshly created upaparva entry. -/
def initUpaparva (name : String) : UpaparvaNode := ⟨[], ⟨0, 0, 0⟩, name⟩

/-- A freshly created parva entry. -/
def initParva (name : String) : ParvaNode := ⟨[], ⟨0, 0, 0⟩, name⟩

/-- Push the shloka into the leaf bucket and update its stats. -/
def bumpAdhyaya (s : Shloka) (a : AdhyayaNode) : AdhyayaNode :=
  { shlokas := a.shlokas ++ [s], stats := bumpStats s.has_match a.stats, name := a.name }

/-- Update one upaparva entry for one record. -/
def bumpUpaparva (s : Shloka) (adhyaya adhyayaName : String) (u : UpaparvaNode) :
    UpaparvaNode :=
  { adhyayas := updateA adhyaya (initAdhyaya adhyayaName) (bumpAdhyaya s) u.adhyayas
    stats := bumpStats s.has_match u.stats
    name := u.name }

/-- Update one parva entry for one record. -/
def bumpParva (s : Shloka) (upaparva upaparvaName adhyaya adhyayaName : String)
    (p : ParvaNode) : ParvaNode :=
  { upaparvas :=
      updateA upaparva (initUpaparva upaparvaName)
        (bumpUpaparva s adhyaya adhyayaName) p.upaparvas
    stats := bumpStats s.has_match p.stats
    name := p.name }

/-- The body of the `shlokas.forEach(...)` loop of `groupByHierarchy`
(lines 183-232): resolve keys (`|| 'Unknown'` fallbacks included), create
missing levels, push the record, and increment the stats at all three
levels. -/
def insertShloka (h : Hierarchy) (s : Shloka) : Hierarchy :=
  let p := parseSrirangaHierarchy s
  let parva := jsOrStr p.parva "Unknown"
  let parvaName := jsOrStr p.parvaName parva
  let upaparva := jsOrStr p.upaparva "Unknown"
  let upaparvaName := jsOrStr p.upaparvaName upaparva
  let adhyaya := jsOrStr p.adhyaya "Unknown"
  let adhyayaName := jsOrStr p.adhyayaName adhyaya
  updateA parva (initParva parvaName)
    (bumpParva s upaparva upaparvaName adhyaya adhyayaName) h

/-- `groupByHierarchy` (lines 180-235). -/
def groupByHierarchy (shlokas : List Shloka) : Hierarchy :=
  shlokas.foldl insertShloka []

/-! ## Derived notions used by the verification -/

/-- The first record of the specification's aggregator scenario. -/
def specRecord1 : Shloka :=
  { id := some "s1", has_match := true, similarity := some (95 / 100),
    match_corpus := some "ce" }

/-- The second record of the specification's aggregator scenario. -/
def specRecord2 : Shloka :=
  { id := some "s2", has_match := false }

/-- `total = matched + unmatched` for one stats record. -/
def goodStatsB (st : Stats) : Bool := st.total == st.matched + st.unmatched

/-- Invariant of a leaf node: its stats are consistent and count exactly
its bucket. -/
def adhyayaInvB (a : AdhyayaNode) : Bool :=
  goodStatsB a.stats && (a.stats.total == a.shlokas.length)

/-- Invariant of a middle node: consistent stats that equal, component by
component, the sums over its children, all of which are invariant. -/
def upaparvaInvB (u : UpaparvaNode) : Bool :=
  goodStatsB u.stats &&
    (u.stats.matched == (u.adhyayas.map (fun kv => kv.2.stats.matched)).sum) &&
    (u.stats.unmatched == (u.adhyayas.map (fun kv => kv.2.stats.unmatched)).sum) &&
    (u.stats.total == (u.adhyayas.map (fun kv => kv.2.stats.total)).sum) &&
    u.adhyayas.all (fun kv => adhyayaInvB kv.2)

/-- Invariant of a top node. -/
def parvaInvB (p : ParvaNode) : Bool :=
  goodStatsB p.stats &&
    (p.stats.matched == (p.upaparvas.map (fun kv => kv.2.stats.matched)).sum) &&
    (p.stats.unmatched == (p.upaparvas.map (fun kv => kv.2.stats.unmatched)).sum) &&
    (p.stats.total == (p.upaparvas.map (fun kv => kv.2.stats.total)).sum) &&
    p.upaparvas.all (fun kv => upaparvaInvB kv.2)

/-- Invariant of the whole hierarchy. -/
def hierInvB (h : Hierarchy) : Bool := h.all (fun kv => parvaInvB kv.2)

/-- Sum of the leaf-bucket totals below one upaparva. -/
def upaLeafTotal (u : UpaparvaNode) : Nat :=
  (u.adhyayas.map (fun kv => kv.2.stats.total)).sum

/-- Sum of the leaf-bucket totals below one parva. -/
def parvaLeafTotal (p : ParvaNode) : Nat :=
  (p.upaparvas.map (fun kv => upaLeafTotal kv.2)).sum

/-- Sum of all leaf-bucket totals of the hierarchy. -/
def leafTotals (h : Hierarchy) : Nat :=
  (h.map (fun kv => parvaLeafTotal kv.2)).sum

/-- The records stored in one leaf, as a multiset. -/
def adhyayaMS (a : AdhyayaNode) : Multiset Shloka := (a.shlokas : Multiset Shloka)

/-- The records stored below one upaparva. -/
def upaparvaMS (u : UpaparvaNode) : Multiset Shloka :=
  (u.adhyayas.map (fun kv => adhyayaMS kv.2)).sum

/-- The records stored below one parva. -/
def parvaMS (p : ParvaNode) : Multiset Shloka :=
  (p.upaparvas.map (fun kv => upaparvaMS kv.2)).sum

/-- All records stored in the leaves of the hierarchy. -/
def hierMS (h : Hierarchy) : Multiset Shloka :=
  (h.map (fun kv => parvaMS kv.2)).sum

/-- The combined effect of the two danda replacements of the tokenizer on
one character. -/
def expandDanda (c : Char) : List Char :=
  if c == '।' then [' ', '।', ' ']
  else if c == '॥' then [' ', '॥', ' ']
  else [c]

/-- The maximal whitespace-free runs of a character list: the
characterization of the tokenizer's collapse/trim/split/filter chain. -/
def wsTokens (l : List Char) : List (List Char) :=
  (jsSplit jsIsWS l).filter (fun t => 0 < t.length)

/-! ## Lemmas about the diff annotations -/

theorem annotateBySet_mem {S ws : List (List Char)} {pr : List Char × Mark}
    (hm : pr ∈ annotateBySet S ws) :
    pr.1 ∈ ws ∧
      pr.2 =
        (if skipToken pr.1 then Mark.unannotated
         else if S.contains (normalizeWord pr.1) then Mark.matching
         else Mark.different) := by
  unfold annotateBySet at hm
  rcases List.mem_map.1 hm with ⟨w, hw, hpr⟩
  subst hpr
  exact ⟨hw, rfl⟩

theorem annotatePosAux_mem {pos : List Nat} {pr : List Char × Mark} :
    ∀ {ws : List (List Char)} {j : Nat}, pr ∈ annotatePosAux pos j ws →
      pr.1 ∈ ws ∧
        (skipToken pr.1 = true → pr.2 = Mark.unannotated) := by
  intro ws
  induction ws with
  | nil => intro j hm; simp [annotatePosAux] at hm
  | cons w ws ih =>
    intro j hm
    simp only [annotatePosAux, List.mem_cons] at hm
    rcases hm with hm | hm
    · subst hm
      refine ⟨List.mem_cons_self _ _, ?_⟩
      intro hskip
      simp [hskip]
    · rcases ih hm with ⟨h1, h2⟩
      exact ⟨List.mem_cons_of_mem _ h1, h2⟩

theorem annotatePosAux_getElem? (pos : List Nat) :
    ∀ (ws : List (List Char)) (j i : Nat),
      (annotatePosAux pos j ws)[i]? =
        ws[i]?.map (fun w =>
          (w,
            if skipToken w then Mark.unannotated
            else if pos.contains (j + i) then Mark.matching
            else Mark.different))
  | [], _, _ => by simp [annotatePosAux]
  | w :: ws, j, 0 => by simp [annotatePosAux]
  | w :: ws, j, i + 1 => by
    have h := annotatePosAux_getElem? pos ws (j + 1) i
    simp only [annotatePosAux, List.getElem?_cons_succ, h]
    have : j + 1 + i = j + (i + 1) := by omega
    rw [this]

theorem normSet_ne_nil {ws : List (List Char)} {n : List Char} (hn : n ∈ normSet ws) :
    n ≠ [] := by
  unfold normSet at hn
  have := (List.mem_filter.1 hn).2
  intro h
  subst h
  simp at this

theorem normSet_not_contains_nil (ws : List (List Char)) :
    (normSet ws).contains ([] : List Char) = false := by
  by_contra h
  have hc : (normSet ws).contains ([] : List Char) = true := by
    revert h; cases (normSet ws).contains ([] : List Char) <;> simp
  have : ([] : List Char) ∈ normSet ws := by
    simpa [List.contains, List.elem_iff] using hc
  exact normSet_ne_nil this rfl

/-! ## Claim C2 -/

/-- Claim C2: in both diff strategies, on both sides, every token that is a
standalone danda or a pure-numeral token is passed through unannotated —
never marked matching and never marked different. -/
theorem dandaNumeral_unannotated
    (sw tw : List (List Char)) (a : Alignment) (pr : List Char × Mark)
    (hm : pr ∈ (diffWithAlignment sw tw a).sourceAnnotated ∨
          pr ∈ (diffWithAlignment sw tw a).targetAnnotated ∨
          pr ∈ (diffWithLCS sw tw).sourceAnnotated ∨
          pr ∈ (diffWithLCS sw tw).targetAnnotated)
    (hskip : skipToken pr.1 = true) : pr.2 = Mark.unannotated := by
  rcases hm with hm | hm | hm | hm
  · exact (annotatePosAux_mem hm).2 hskip
  · rw [(annotateBySet_mem hm).2, if_pos hskip]
  · rw [(annotateBySet_mem hm).2, if_pos hskip]
  · rw [(annotateBySet_mem hm).2, if_pos hskip]

/-- Witness for C2: the danda token `।` comes through both strategies
unannotated. -/
theorem dandaNumeral_unannotated_witness :
    ((['।'], Mark.unannotated) : List Char × Mark).2 = Mark.unannotated :=
  dandaNumeral_unannotated [['।']] [['क']] {} (['।'], Mark.unannotated)
    (Or.inr (Or.inr (Or.inl (by decide)))) (by decide)

/-! ## Claim C3 -/

/-- Claim C3: under the alignment strategy, a non-danda non-numeral source
token at index `i` is marked matching exactly when `i` is in the
pipeline-supplied matched-position set, and different otherwise; the source
side does not depend on the target tokens at all. -/
theorem alignment_source_marks (sw tw tw₂ : List (List Char)) (a : Alignment)
    (i : Nat) (w : List Char) (hw : sw[i]? = some w) (hskip : skipToken w = false) :
    ((diffWithAlignment sw tw a).sourceAnnotated[i]? =
        some (w,
          if (alignPositions a).contains i then Mark.matching else Mark.different)) ∧
      (diffWithAlignment sw tw a).sourceAnnotated =
        (diffWithAlignment sw tw₂ a).sourceAnnotated := by
  constructor
  · show (annotateByPositions (alignPositions a) sw)[i]? = _
    rw [annotateByPositions, annotatePosAux_getElem?, hw]
    simp [hskip]
  · rfl

/-- Witness for C3, the scenario from the specification: matched positions
`{0, 1}` over three source tokens mark indices 0 and 1 matching and index 2
different, for two entirely different target texts. -/
theorem alignment_source_marks_witness :
    ((diffWithAlignment [['a'], ['b'], ['c']] [['x']]
          { matched_positions := some [0, 1] }).sourceAnnotated[2]? =
        some (['c'],
          if (alignPositions { matched_positions := some [0, 1] }).contains 2 then
            Mark.matching
          else Mark.different)) ∧
      (diffWithAlignment [['a'], ['b'], ['c']] [['x']]
            { matched_positions := some [0, 1] }).sourceAnnotated =
        (diffWithAlignment [['a'], ['b'], ['c']] [['y'], ['z']]
            { matched_positions := some [0, 1] }).sourceAnnotated :=
  alignment_source_marks [['a'], ['b'], ['c']] [['x']] [['y'], ['z']]
    { matched_positions := some [0, 1] } 2 ['c'] (by decide) (by decide)

/-! ## Claim C4 -/

/-- Claim C4: fallback diff symmetry.  If a normalized form occurs in both
the normalized source token set and the normalized target token set, then
every token with that normalized form (other than dandas and numerals) is
marked matching on both sides. -/
theorem fallback_symmetry (sw tw : List (List Char)) (n : List Char)
    (hs : n ∈ normSet sw) (ht : n ∈ normSet tw) :
    (∀ pr ∈ (diffWithLCS sw tw).sourceAnnotated,
        skipToken pr.1 = false → normalizeWord pr.1 = n → pr.2 = Mark.matching) ∧
      (∀ pr ∈ (diffWithLCS sw tw).targetAnnotated,
        skipToken pr.1 = false → normalizeWord pr.1 = n → pr.2 = Mark.matching) := by
  constructor
  · intro pr hm hskip hn
    rw [(annotateBySet_mem hm).2, if_neg (by simp [hskip]), hn, if_pos]
    simp [List.contains, List.elem_iff, ht]
  · intro pr hm hskip hn
    rw [(annotateBySet_mem hm).2, if_neg (by simp [hskip]), hn, if_pos]
    simp [List.contains, List.elem_iff, hs]

/-- Witness for C4 (the scenario of the specification): the shared word
`धर्मक्षेत्रे` is marked matching on both sides of the fallback diff. -/
theorem fallback_symmetry_witness :
    (∀ pr ∈ (diffWithLCS (tokenize "धर्मक्षेत्रे कुरुक्षेत्रे ।".data)
          (tokenize "धर्मक्षेत्रे समवेता ।".data)).sourceAnnotated,
        skipToken pr.1 = false → normalizeWord pr.1 = "धर्मक्षेत्रे".data →
          pr.2 = Mark.matching) ∧
      (∀ pr ∈ (diffWithLCS (tokenize "धर्मक्षेत्रे कुरुक्षेत्रे ।".data)
            (tokenize "धर्मक्षेत्रे समवेता ।".data)).targetAnnotated,
        skipToken pr.1 = false → normalizeWord pr.1 = "धर्मक्षेत्रे".data →
          pr.2 = Mark.matching) :=
  fallback_symmetry (tokenize "धर्मक्षेत्रे कुरुक्षेत्रे ।".data)
    (tokenize "धर्मक्षेत्रे समवेता ।".data) ("धर्मक्षेत्रे".data)
    (by decide) (by decide)

/-! ## Claim C8 -/

/-- Claim C8: `computeDiff` uses the alignment strategy exactly when
`metadata.alignment` is present with `target_words` and a
`matched_positions` index set; in every other case (no metadata, no
alignment object, or partially populated alignment data) it falls back to
the set-based strategy. -/
theorem computeDiff_strategy_selection (s : Shloka) :
    (∀ m a, s.metadata = some m → m.alignment = some a →
        (a.target_words.isSome && a.matched_positions.isSome) = true →
        computeDiff s =
          diffWithAlignment (tokenize (s.source_text.getD []))
            (tokenize (s.matched_target_text.getD [])) a) ∧
      (hasAlignmentInfo s = false →
        computeDiff s =
          diffWithLCS (tokenize (s.source_text.getD []))
            (tokenize (s.matched_target_text.getD []))) := by
  constructor
  · intro m a hm ha hcond
    simp only [computeDiff, hm, ha, hcond, if_true]
  · intro hno
    cases hmd : s.metadata with
    | none => simp [computeDiff, hmd]
    | some m =>
      cases hal : m.alignment with
      | none => simp [computeDiff, hmd, hal]
      | some a =>
        have heq : hasAlignmentInfo s = (a.target_words.isSome && a.matched_positions.isSome) := by
          simp [hasAlignmentInfo, hmd, hal]
        rw [heq] at hno
        simp [computeDiff, hmd, hal, hno]

/-- Witness for C8: a record carrying full alignment data dispatches to the
alignment strategy. -/
theorem computeDiff_strategy_selection_witness :
    computeDiff
        { source_text := some "a b".data
          matched_target_text := some "a c".data
          metadata := some
            { alignment := some
                { target_words := some [['a'], ['c']]
                  matched_positions := some [0] } } } =
      diffWithAlignment (tokenize ("a b".data)) (tokenize ("a c".data))
        { target_words := some [['a'], ['c']], matched_positions := some [0] } :=
  (computeDiff_strategy_selection _).1
    { alignment := some
        { target_words := some [['a'], ['c']], matched_positions := some [0] } }
    { target_words := some [['a'], ['c']], matched_positions := some [0] }
    rfl rfl rfl

/-! ## Claim C10 -/

/-- Counterexample to C10 as stated: in the alignment strategy the source
side is marked purely by position, so the visarga-only token `ः` (whose
normalized form is empty and which is not a danda or numeral) is marked
*matching* when its index is in the matched-position set — not "always
different". -/
theorem emptyNormalized_counterexample :
    normalizeWord ['ः'] = [] ∧ skipToken ['ः'] = false ∧
      (diffWithAlignment [['ः']] [['क']]
          { matched_positions := some [0] }).sourceAnnotated =
        [(['ः'], Mark.matching)] := by
  refine ⟨by decide, by decide, by decide⟩

/-- Claim C10, amended: on every side annotated by normalized-set
membership — both sides of the fallback diff and the target side of the
alignment diff — a token whose normalized form is empty but which is not a
danda or pure-numeral token is always marked different, because empty
normalized forms are filtered out of the comparison sets.  (On the
alignment strategy's source side the mark follows the matched-position set
instead.) -/
theorem emptyNormalized_different
    (sw tw : List (List Char)) (a : Alignment) (pr : List Char × Mark)
    (hm : pr ∈ (diffWithLCS sw tw).sourceAnnotated ∨
          pr ∈ (diffWithLCS sw tw).targetAnnotated ∨
          pr ∈ (diffWithAlignment sw tw a).targetAnnotated)
    (hskip : skipToken pr.1 = false) (hn : normalizeWord pr.1 = []) :
    pr.2 = Mark.different := by
  have hstep : ∀ S ws, pr ∈ annotateBySet (normSet S) ws → pr.2 = Mark.different := by
    intro S ws hmem
    rw [(annotateBySet_mem hmem).2, if_neg (by simp [hskip]), hn,
      normSet_not_contains_nil]
    simp
  rcases hm with hm | hm | hm
  · exact hstep tw sw hm
  · exact hstep sw tw hm
  · exact hstep _ tw hm

/-- Witness for the amended C10: the visarga-only token is marked different
on the source side of the fallback diff. -/
theorem emptyNormalized_different_witness :
    ((['ः'], Mark.different) : List Char × Mark).2 = Mark.different :=
  emptyNormalized_different [['ः']] [['क']] {} (['ः'], Mark.different)
    (Or.inl (by decide)) (by decide) (by decide)

/-! ## Claim C7 -/

theorem highConfidence_add_partial (data : List Shloka)
    (hval : ∀ s ∈ data, s.has_match = true → s.similarity.isSome = true) :
    (data.filter (fun s => s.has_match && simGE s.similarity (9 / 10))).length +
        (data.filter (fun s => s.has_match && simLT s.similarity (9 / 10))).length =
      (data.filter (fun s => s.has_match)).length := by
  simp only [← List.countP_eq_length_filter]
  induction data with
  | nil => simp
  | cons s t ih =>
    have hih := ih (fun x hx => hval x (List.mem_cons_of_mem _ hx))
    rw [List.countP_cons, List.countP_cons, List.countP_cons]
    cases hm : s.has_match with
    | false => simp; omega
    | true =>
      have hsim := hval s (List.mem_cons_self _ _) hm
      cases hsome : s.similarity with
      | none => simp [hsome] at hsim
      | some q =>
        by_cases hge : (9 / 10 : ℚ) ≤ q
        · have hlt : ¬(q < (9 / 10 : ℚ)) := not_lt.2 hge
          have e1 : simGE (some q) (9 / 10) = true := by simp [simGE, hge]
          have e2 : simLT (some q) (9 / 10) = false := by simp [simLT, hlt]
          simp [e1, e2]
          omega
        · have hlt : q < (9 / 10 : ℚ) := not_le.1 hge
          have e1 : simGE (some q) (9 / 10) = false := by simp [simGE, hge]
          have e2 : simLT (some q) (9 / 10) = true := by simp [simLT, hlt]
          simp [e1, e2]
          omega

/-- Claim C7: the statistics aggregator satisfies
`highConfidence + partial = anyMatch` (on records observing the data-model
invariant that `similarity` is present whenever `hasMatch` is), its match
rate is `0` for an empty record set and `anyMatch/total*100` rounded to one
decimal otherwise, and it produces exactly the claimed numbers on the
two-record scenario of the specification. -/
theorem aggregateStats_ok :
    (∀ data : List Shloka,
        (∀ s ∈ data, s.has_match = true → s.similarity.isSome = true) →
        (aggregateStats data).highConfidence + (aggregateStats data).partialCount =
          (aggregateStats data).allMatched) ∧
      (∀ data : List Shloka,
        (aggregateStats data).total = 0 → (aggregateStats data).matchRate = 0) ∧
      (∀ data : List Shloka,
        0 < (aggregateStats data).total →
          (aggregateStats data).matchRate =
            roundTo1 ((((aggregateStats data).allMatched : ℚ) /
              ((aggregateStats data).total : ℚ)) * 100)) ∧
      aggregateStats [specRecord1, specRecord2] =
        { total := 2, allMatched := 1, unmatched := 1, highConfidence := 1,
          partialCount := 0, mndutt := 0, ce := 1, sarit := 0, manyToOne := 0,
          oneToMany := 0, matched := 1, matchRate := 50 } := by
  refine ⟨?_, ?_, ?_, ?_⟩
  · intro data hval
    simpa [aggregateStats] using highConfidence_add_partial data hval
  · intro data h0
    have : data.length = 0 := by simpa [aggregateStats] using h0
    simp [aggregateStats, this]
  · intro data hpos
    have : 0 < data.length := by simpa [aggregateStats] using hpos
    simp [aggregateStats, this]
  · simp only [aggregateStats, specRecord1, specRecord2]
    norm_num [simGE, simLT, roundTo1]
    decide

/-- Witness for C7: the count identity applied to the scenario record set,
whose records all satisfy the `similarity`-present-iff-matched invariant. -/
theorem aggregateStats_ok_witness :
    (aggregateStats [specRecord1, specRecord2]).highConfidence +
        (aggregateStats [specRecord1, specRecord2]).partialCount =
      (aggregateStats [specRecord1, specRecord2]).allMatched :=
  aggregateStats_ok.1 [specRecord1, specRecord2] (by decide)

/-! ## Claim C5: lemmas about `Char.toLower` -/

theorem char_toNat_ofNat (n : Nat) (h : n < 55296) : (Char.ofNat n).toNat = n := by
  rw [Char.ofNat, dif_pos (Or.inl h)]
  rfl

theorem toLower_eq_or (c : Char) :
    Char.toLower c = c ∨
      (65 ≤ c.toNat ∧ c.toNat ≤ 90 ∧ Char.toLower c = Char.ofNat (c.toNat + 32)) := by
  unfold Char.toLower
  by_cases h : 65 ≤ c.toNat ∧ c.toNat ≤ 90
  · exact Or.inr ⟨h.1, h.2, by rw [if_pos h]⟩
  · exact Or.inl (by rw [if_neg h])

theorem lowerRange_props (n : Nat) (h1 : 65 ≤ n) (h2 : n ≤ 90) :
    isRemovedChar (Char.ofNat (n + 32)) = false ∧
      Char.ofNat (n + 32) ≠ 'ं' ∧ Char.ofNat (n + 32) ≠ 'ः' ∧
      jsIsWS (Char.ofNat (n + 32)) = false ∧
      Char.toLower (Char.ofNat (n + 32)) = Char.ofNat (n + 32) := by
  interval_cases n <;> exact (by decide)

theorem toLower_pres (c : Char) :
    (isRemovedChar c = false → isRemovedChar (Char.toLower c) = false) ∧
      (c ≠ 'ं' → Char.toLower c ≠ 'ं') ∧
      (c ≠ 'ः' → Char.toLower c ≠ 'ः') ∧
      (jsIsWS c = false → jsIsWS (Char.toLower c) = false) ∧
      Char.toLower (Char.toLower c) = Char.toLower c := by
  rcases toLower_eq_or c with h | ⟨h1, h2, h⟩
  · rw [h]
    exact ⟨fun x => x, fun x => x, fun x => x, fun x => x, h ▸ h⟩
  · rcases lowerRange_props c.toNat h1 h2 with ⟨p1, p2, p3, p4, p5⟩
    rw [h]
    exact ⟨fun _ => p1, fun _ => p2, fun _ => p3, fun _ => p4, p5⟩

/-! ### Trim lemmas -/

theorem trimRight_prefix (z : List Char) : trimRight z <+: z := by
  have h := List.dropWhile_suffix (l := z.reverse) jsIsWS
  have h2 := List.reverse_prefix.2 h
  simpa [trimRight] using h2

theorem prefix_head? {α : Type} {a z : List α} (h : a <+: z) (hne : a ≠ []) :
    a.head? = z.head? := by
  rcases h with ⟨t, rfl⟩
  cases a with
  | nil => exact absurd rfl hne
  | cons c cs => simp

theorem jsTrim_subset (l : List Char) : jsTrim l ⊆ l := by
  intro c hc
  unfold jsTrim trimRight trimLeft at hc
  rw [List.mem_reverse] at hc
  have hc2 := List.dropWhile_subset _ hc
  rw [List.mem_reverse] at hc2
  exact List.dropWhile_subset _ hc2

theorem head?_dropWhile_false {p : Char → Bool} {l : List Char} {c : Char}
    (h : (l.dropWhile p).head? = some c) : p c = false := by
  have hh := List.head?_dropWhile_not p l
  rw [h] at hh
  exact hh

theorem head?_jsTrim {l : List Char} {c : Char} (h : (jsTrim l).head? = some c) :
    jsIsWS c = false := by
  unfold jsTrim at h
  rcases heq : trimRight (trimLeft l) with _ | ⟨d, t⟩
  · rw [heq] at h; simp at h
  · have hpre := trimRight_prefix (trimLeft l)
    rw [heq] at hpre h
    have hne : (d :: t : List Char) ≠ [] := by simp
    have hhead := (prefix_head? hpre hne).symm.trans h
    exact head?_dropWhile_false (p := jsIsWS) (l := l) hhead

theorem getLast?_jsTrim {l : List Char} {c : Char} (h : (jsTrim l).getLast? = some c) :
    jsIsWS c = false := by
  unfold jsTrim trimRight at h
  rw [List.getLast?_reverse] at h
  exact head?_dropWhile_false h

theorem trimLeft_eq_self {l : List Char}
    (h : ∀ c, l.head? = some c → jsIsWS c = false) : trimLeft l = l := by
  cases l with
  | nil => rfl
  | cons c cs =>
    have := h c rfl
    unfold trimLeft
    rw [List.dropWhile_cons_of_neg (by simp [this])]

theorem trimRight_eq_self {l : List Char}
    (h : ∀ c, l.getLast? = some c → jsIsWS c = false) : trimRight l = l := by
  unfold trimRight
  have hrev : l.reverse.dropWhile jsIsWS = l.reverse := by
    cases hl : l.reverse with
    | nil => rfl
    | cons c cs =>
      have hc : l.getLast? = some c := by
        rw [List.getLast?_eq_head?_reverse, hl]; rfl
      rw [List.dropWhile_cons_of_neg (by simp [h c hc])]
  rw [hrev, List.reverse_reverse]

theorem jsTrim_eq_self {l : List Char}
    (hh : ∀ c, l.head? = some c → jsIsWS c = false)
    (hl : ∀ c, l.getLast? = some c → jsIsWS c = false) : jsTrim l = l := by
  unfold jsTrim
  rw [trimLeft_eq_self hh, trimRight_eq_self hl]

/-! ### Properties of the characters of `normCore` -/

theorem flatMap_singleton_id {α : Type} {f : α → List α} :
    ∀ {l : List α}, (∀ c ∈ l, f c = [c]) → l.flatMap f = l
  | [], _ => rfl
  | c :: cs, h => by
    rw [List.flatMap_cons, h c (List.mem_cons_self _ _),
      flatMap_singleton_id (fun d hd => h d (List.mem_cons_of_mem _ hd))]
    rfl

theorem normCore_mem {w : List Char} {c : Char} (hc : c ∈ normCore w) :
    isRemovedChar c = false ∧ c ≠ 'ं' ∧ c ≠ 'ः' ∧ Char.toLower c = c := by
  unfold normCore at hc
  rcases List.mem_map.1 hc with ⟨d, hd, rfl⟩
  have hdx := jsTrim_subset _ hd
  rcases List.mem_filter.1 hdx with ⟨hdf, hdq⟩
  have hdvis : d ≠ 'ः' := by
    intro h
    rw [h] at hdq
    simp at hdq
  rcases List.mem_flatMap.1 hdf with ⟨e, he, hde⟩
  have hep : isRemovedChar e = false := by
    have := (List.mem_filter.1 he).2
    simpa using this
  have hd3 : isRemovedChar d = false ∧ d ≠ 'ं' := by
    unfold expandAnusvara at hde
    by_cases hanu : e = 'ं'
    · rw [if_pos (by simp [hanu])] at hde
      rcases List.mem_pair.1 hde with rfl | rfl
      · exact ⟨by decide, by decide⟩
      · exact ⟨by decide, by decide⟩
    · rw [if_neg (by simp [hanu])] at hde
      rcases List.mem_singleton.1 hde with rfl
      exact ⟨hep, hanu⟩
  rcases toLower_pres d with ⟨p1, p2, p3, _, p5⟩
  exact ⟨p1 hd3.1, p2 hd3.2, p3 hdvis, p5⟩

theorem jsTrim_normCore (w : List Char) : jsTrim (normCore w) = normCore w := by
  apply jsTrim_eq_self
  · intro c hc
    unfold normCore at hc
    rw [List.head?_map] at hc
    cases hy : (jsTrim (((w.filter (fun c => !isRemovedChar c)).flatMap
        expandAnusvara).filter (fun c => !(c == 'ः')))).head? with
    | none => rw [hy] at hc; simp at hc
    | some d =>
      rw [hy] at hc
      have hd := head?_jsTrim hy
      have : c = Char.toLower d := by simpa using hc.symm
      rw [this]
      exact (toLower_pres d).2.2.2.1 hd
  · intro c hc
    unfold normCore at hc
    rw [List.getLast?_map] at hc
    cases hy : (jsTrim (((w.filter (fun c => !isRemovedChar c)).flatMap
        expandAnusvara).filter (fun c => !(c == 'ः')))).getLast? with
    | none => rw [hy] at hc; simp at hc
    | some d =>
      rw [hy] at hc
      have hd := getLast?_jsTrim hy
      have : c = Char.toLower d := by simpa using hc.symm
      rw [this]
      exact (toLower_pres d).2.2.2.1 hd

theorem normCore_normCore (w : List Char) : normCore (normCore w) = normCore w := by
  have hmem := fun c hc => normCore_mem (w := w) (c := c) hc
  have h1 : (normCore w).filter (fun c => !isRemovedChar c) = normCore w :=
    List.filter_eq_self.2 (fun c hc => by simp [(hmem c hc).1])
  have h2 : (normCore w).flatMap expandAnusvara = normCore w :=
    flatMap_singleton_id (fun c hc => by
      unfold expandAnusvara
      rw [if_neg (by simp [(hmem c hc).2.1])])
  have h3 : (normCore w).filter (fun c => !(c == 'ः')) = normCore w :=
    List.filter_eq_self.2 (fun c hc => by simp [(hmem c hc).2.2.1])
  have h5 : (normCore w).map Char.toLower = normCore w := by
    rw [List.map_congr_left (fun c hc => (hmem c hc).2.2.2)]
    simp
  conv_lhs => rw [normCore, h1, h2, h3, jsTrim_normCore, h5]

/-- Claim C5: `normalizeWord` is idempotent, and normalizing the uppercase
form `"X"` equals normalizing the lowercase form `"x"` twice. -/
theorem normalizeWord_idempotent :
    (∀ w : List Char, normalizeWord (normalizeWord w) = normalizeWord w) ∧
      normalizeWord ['X'] = normalizeWord (normalizeWord ['x']) := by
  constructor
  · intro w
    unfold normalizeWord
    by_cases hw : w.isEmpty
    · simp [hw]
    · simp only [hw, if_false]
      by_cases hr : (normCore w).isEmpty
      · rw [if_pos (by simp [hr])]
        rw [List.isEmpty_iff] at hr
        exact hr.symm
      · rw [if_neg (by simp [hr])]
        exact normCore_normCore w
  · decide

/-! ## Claims C1 and C6: hierarchy invariants -/

theorem updateA_forall {α : Type} {P : α → Prop} {k : String} {init : α} {f : α → α}
    (h1 : P (f init)) (h2 : ∀ v, P v → P (f v)) :
    ∀ {l : List (String × α)}, (∀ kv ∈ l, P kv.2) → ∀ kv ∈ updateA k init f l, P kv.2 := by
  intro l
  induction l with
  | nil =>
    intro _ kv hkv
    simp only [updateA, List.mem_singleton] at hkv
    subst hkv
    exact h1
  | cons e rest ih =>
    intro hall kv hkv
    rcases e with ⟨k₁, v⟩
    simp only [updateA] at hkv
    by_cases hk : k₁ = k
    · rw [if_pos hk] at hkv
      rcases List.mem_cons.1 hkv with rfl | hm
      · exact h2 v (hall (k₁, v) (List.mem_cons_self _ _))
      · exact hall _ (List.mem_cons_of_mem _ hm)
    · rw [if_neg hk] at hkv
      rcases List.mem_cons.1 hkv with rfl | hm
      · exact hall _ (List.mem_cons_self _ _)
      · exact ih (fun x hx => hall x (List.mem_cons_of_mem _ hx)) kv hm

theorem updateA_sum {α M : Type} [AddCommMonoid M] (k : String) (init : α) (f : α → α)
    (m : α → M) (d : M) (hinit : m init = 0) (hf : ∀ v, m (f v) = m v + d) :
    ∀ l : List (String × α),
      ((updateA k init f l).map (fun kv => m kv.2)).sum =
        (l.map (fun kv => m kv.2)).sum + d
  | [] => by simp [updateA, hf, hinit]
  | (k₁, v) :: rest => by
    by_cases hk : k₁ = k
    · simp only [updateA, if_pos hk, List.map_cons, List.sum_cons, hf]
      exact add_right_comm _ d _
    · simp only [updateA, if_neg hk, List.map_cons, List.sum_cons,
        updateA_sum k init f m d hinit hf rest]
      exact (add_assoc _ _ _).symm

theorem bumpStats_matched (b : Bool) (st : Stats) :
    (bumpStats b st).matched = st.matched + (if b then 1 else 0) := by
  cases b <;> simp [bumpStats]

theorem bumpStats_unmatched (b : Bool) (st : Stats) :
    (bumpStats b st).unmatched = st.unmatched + (if b then 0 else 1) := by
  cases b <;> simp [bumpStats]

theorem bumpStats_total (b : Bool) (st : Stats) :
    (bumpStats b st).total = st.total + 1 := rfl

theorem adhyayaInvB_bump (s : Shloka) {a : AdhyayaNode} (h : adhyayaInvB a = true) :
    adhyayaInvB (bumpAdhyaya s a) = true := by
  simp only [adhyayaInvB, goodStatsB, Bool.and_eq_true, beq_iff_eq] at h ⊢
  rcases h with ⟨h1, h2⟩
  cases hb : s.has_match <;>
    simp [bumpAdhyaya, bumpStats, hb] <;> omega

theorem adhyayaInvB_new (s : Shloka) (name : String) :
    adhyayaInvB (bumpAdhyaya s (initAdhyaya name)) = true := by
  cases hb : s.has_match <;>
    simp [adhyayaInvB, bumpAdhyaya, initAdhyaya, bumpStats, goodStatsB, hb]

theorem upaparvaInvB_bump (s : Shloka) (ad adn : String) {u : UpaparvaNode}
    (h : upaparvaInvB u = true) :
    upaparvaInvB (bumpUpaparva s ad adn u) = true := by
  simp only [upaparvaInvB, goodStatsB, Bool.and_eq_true, beq_iff_eq,
    List.all_eq_true] at h ⊢
  obtain ⟨⟨⟨⟨hg, hm⟩, hu⟩, ht⟩, hall⟩ := h
  have hM := updateA_sum ad (initAdhyaya adn) (bumpAdhyaya s)
    (fun a => a.stats.matched) (if s.has_match then 1 else 0) rfl
    (fun v => bumpStats_matched s.has_match v.stats) u.adhyayas
  have hU := updateA_sum ad (initAdhyaya adn) (bumpAdhyaya s)
    (fun a => a.stats.unmatched) (if s.has_match then 0 else 1) rfl
    (fun v => bumpStats_unmatched s.has_match v.stats) u.adhyayas
  have hT := updateA_sum ad (initAdhyaya adn) (bumpAdhyaya s)
    (fun a => a.stats.total) 1 rfl
    (fun v => bumpStats_total s.has_match v.stats) u.adhyayas
  refine ⟨⟨⟨⟨?_, ?_⟩, ?_⟩, ?_⟩, ?_⟩
  · cases hb : s.has_match <;>
      simp [bumpUpaparva, bumpStats, hb] <;> omega
  · show (bumpStats s.has_match u.stats).matched = _
    rw [bumpStats_matched]
    refine Eq.trans ?_ hM.symm
    omega
  · show (bumpStats s.has_match u.stats).unmatched = _
    rw [bumpStats_unmatched]
    refine Eq.trans ?_ hU.symm
    omega
  · show (bumpStats s.has_match u.stats).total = _
    rw [bumpStats_total]
    refine Eq.trans ?_ hT.symm
    omega
  · intro kv hkv
    exact updateA_forall (P := fun a => adhyayaInvB a = true)
      (adhyayaInvB_new s adn) (fun v hv => adhyayaInvB_bump s hv) hall kv hkv

theorem upaparvaInvB_new (s : Shloka) (ad adn un : String) :
    upaparvaInvB (bumpUpaparva s ad adn (initUpaparva un)) = true := by
  cases hb : s.has_match <;>
    simp [upaparvaInvB, adhyayaInvB, bumpUpaparva, initUpaparva, updateA,
      bumpAdhyaya, initAdhyaya, bumpStats, goodStatsB, hb]

theorem parvaInvB_bump (s : Shloka) (up upn ad adn : String) {p : ParvaNode}
    (h : parvaInvB p = true) :
    parvaInvB (bumpParva s up upn ad adn p) = true := by
  simp only [parvaInvB, goodStatsB, Bool.and_eq_true, beq_iff_eq,
    List.all_eq_true] at h ⊢
  obtain ⟨⟨⟨⟨hg, hm⟩, hu⟩, ht⟩, hall⟩ := h
  have hM := updateA_sum up (initUpaparva upn) (bumpUpaparva s ad adn)
    (fun a => a.stats.matched) (if s.has_match then 1 else 0) rfl
    (fun v => bumpStats_matched s.has_match v.stats) p.upaparvas
  have hU := updateA_sum up (initUpaparva upn) (bumpUpaparva s ad adn)
    (fun a => a.stats.unmatched) (if s.has_match then 0 else 1) rfl
    (fun v => bumpStats_unmatched s.has_match v.stats) p.upaparvas
  have hT := updateA_sum up (initUpaparva upn) (bumpUpaparva s ad adn)
    (fun a => a.stats.total) 1 rfl
    (fun v => bumpStats_total s.has_match v.stats) p.upaparvas
  refine ⟨⟨⟨⟨?_, ?_⟩, ?_⟩, ?_⟩, ?_⟩
  · cases hb : s.has_match <;>
      simp [bumpParva, bumpStats, hb] <;> omega
  · show (bumpStats s.has_match p.stats).matched = _
    rw [bumpStats_matched]
    refine Eq.trans ?_ hM.symm
    omega
  · show (bumpStats s.has_match p.stats).unmatched = _
    rw [bumpStats_unmatched]
    refine Eq.trans ?_ hU.symm
    omega
  · show (bumpStats s.has_match p.stats).total = _
    rw [bumpStats_total]
    refine Eq.trans ?_ hT.symm
    omega
  · intro kv hkv
    exact updateA_forall (P := fun a => upaparvaInvB a = true)
      (upaparvaInvB_new s ad adn upn) (fun v hv => upaparvaInvB_bump s ad adn hv)
      hall kv hkv

theorem parvaInvB_new (s : Shloka) (up upn ad adn pn : String) :
    parvaInvB (bumpParva s up upn ad adn (initParva pn)) = true := by
  cases hb : s.has_match <;>
    simp [parvaInvB, upaparvaInvB, adhyayaInvB, bumpParva, initParva, updateA,
      bumpUpaparva, initUpaparva, bumpAdhyaya, initAdhyaya, bumpStats,
      goodStatsB, hb]

theorem hierInvB_insert (s : Shloka) {h : Hierarchy} (hh : hierInvB h = true) :
    hierInvB (insertShloka h s) = true := by
  simp only [hierInvB, List.all_eq_true] at hh ⊢
  intro kv hkv
  simp only [insertShloka] at hkv
  exact updateA_forall (P := fun a => parvaInvB a = true)
    (parvaInvB_new s _ _ _ _ _) (fun v hv => parvaInvB_bump s _ _ _ _ hv) hh kv hkv

theorem upaLeafTotal_bump (s : Shloka) (ad adn : String) (u : UpaparvaNode) :
    upaLeafTotal (bumpUpaparva s ad adn u) = upaLeafTotal u + 1 := by
  show ((updateA ad (initAdhyaya adn) (bumpAdhyaya s) u.adhyayas).map
      (fun kv => kv.2.stats.total)).sum =
    (u.adhyayas.map (fun kv => kv.2.stats.total)).sum + 1
  exact updateA_sum ad (initAdhyaya adn) (bumpAdhyaya s)
    (fun a => a.stats.total) 1 rfl
    (fun v => bumpStats_total s.has_match v.stats) u.adhyayas

theorem parvaLeafTotal_bump (s : Shloka) (up upn ad adn : String) (p : ParvaNode) :
    parvaLeafTotal (bumpParva s up upn ad adn p) = parvaLeafTotal p + 1 := by
  show ((updateA up (initUpaparva upn) (bumpUpaparva s ad adn) p.upaparvas).map
      (fun kv => upaLeafTotal kv.2)).sum =
    (p.upaparvas.map (fun kv => upaLeafTotal kv.2)).sum + 1
  exact updateA_sum up (initUpaparva upn) (bumpUpaparva s ad adn) upaLeafTotal 1 rfl
    (fun v => upaLeafTotal_bump s ad adn v) p.upaparvas

theorem leafTotals_insert (s : Shloka) (h : Hierarchy) :
    leafTotals (insertShloka h s) = leafTotals h + 1 := by
  show ((updateA _ _ _ h).map (fun kv => parvaLeafTotal kv.2)).sum =
    (h.map (fun kv => parvaLeafTotal kv.2)).sum + 1
  exact updateA_sum _ (initParva _) (bumpParva s _ _ _ _) parvaLeafTotal 1 rfl
    (fun v => parvaLeafTotal_bump s _ _ _ _ v) h

/-- Claim C1: for every input record sequence, the hierarchy satisfies
`total = matched + unmatched` at every level, every non-leaf level's counts
equal the component-wise sums of its children's counts, and the sum of all
leaf-bucket totals equals the number of input records. -/
theorem hierarchy_invariants (shlokas : List Shloka) :
    hierInvB (groupByHierarchy shlokas) = true ∧
      leafTotals (groupByHierarchy shlokas) = shlokas.length := by
  have main : ∀ (l : List Shloka) (h : Hierarchy), hierInvB h = true →
      hierInvB (l.foldl insertShloka h) = true ∧
        leafTotals (l.foldl insertShloka h) = leafTotals h + l.length := by
    intro l
    induction l with
    | nil => intro h hh; exact ⟨hh, by simp⟩
    | cons s t ih =>
      intro h hh
      rcases ih (insertShloka h s) (hierInvB_insert s hh) with ⟨h1, h2⟩
      refine ⟨h1, ?_⟩
      simp only [List.foldl_cons] at *
      rw [h2, leafTotals_insert]
      simp only [List.length_cons]
      omega
  rcases main shlokas [] rfl with ⟨h1, h2⟩
  refine ⟨h1, ?_⟩
  simpa [leafTotals] using h2

/-! ### Leaf multiset: every record lands in exactly one leaf bucket -/

theorem adhyayaMS_bump (s : Shloka) (a : AdhyayaNode) :
    adhyayaMS (bumpAdhyaya s a) = adhyayaMS a + {s} := by
  simp [adhyayaMS, bumpAdhyaya, ← Multiset.coe_add]

theorem upaparvaMS_bump (s : Shloka) (ad adn : String) (u : UpaparvaNode) :
    upaparvaMS (bumpUpaparva s ad adn u) = upaparvaMS u + {s} := by
  show ((updateA ad (initAdhyaya adn) (bumpAdhyaya s) u.adhyayas).map
      (fun kv => adhyayaMS kv.2)).sum =
    (u.adhyayas.map (fun kv => adhyayaMS kv.2)).sum + {s}
  exact updateA_sum ad (initAdhyaya adn) (bumpAdhyaya s)
    adhyayaMS {s} rfl (fun v => adhyayaMS_bump s v) u.adhyayas

theorem parvaMS_bump (s : Shloka) (up upn ad adn : String) (p : ParvaNode) :
    parvaMS (bumpParva s up upn ad adn p) = parvaMS p + {s} := by
  show ((updateA up (initUpaparva upn) (bumpUpaparva s ad adn) p.upaparvas).map
      (fun kv => upaparvaMS kv.2)).sum =
    (p.upaparvas.map (fun kv => upaparvaMS kv.2)).sum + {s}
  exact updateA_sum up (initUpaparva upn) (bumpUpaparva s ad adn) upaparvaMS {s} rfl
    (fun v => upaparvaMS_bump s ad adn v) p.upaparvas

theorem hierMS_insert (s : Shloka) (h : Hierarchy) :
    hierMS (insertShloka h s) = hierMS h + {s} := by
  show ((updateA _ _ _ h).map (fun kv => parvaMS kv.2)).sum =
    (h.map (fun kv => parvaMS kv.2)).sum + {s}
  exact updateA_sum _ (initParva _) (bumpParva s _ _ _ _) parvaMS {s} rfl
    (fun v => parvaMS_bump s _ _ _ _ v) h

/-- Counterexample to C6 as stated: a record with none of the id/chapter
fields does **not** fall into an `"Unknown"` bucket — the chapter fallback
always produces the truthy keys `P01`/`U00`/`A000`, so the `|| 'Unknown'`
fallbacks of `groupByHierarchy` are dead code. -/
theorem unknown_bucket_counterexample :
    groupByHierarchy [({} : Shloka)] =
        [("P01",
          { upaparvas :=
              [("U00",
                { adhyayas :=
                    [("A000",
                      { shlokas := [({} : Shloka)], stats := ⟨0, 1, 1⟩,
                        name := "Adhyaya 0" })]
                  stats := ⟨0, 1, 1⟩
                  name := "Upaparva 0" })]
            stats := ⟨0, 1, 1⟩
            name := "Adi Parva" })] ∧
      "Unknown" ∉ (groupByHierarchy [({} : Shloka)]).map Prod.fst := by
  constructor
  · decide
  · decide

/-- Claim C6, amended: the hierarchy build is total — it never fails and
every input record (malformed ones included) lands in exactly one leaf
bucket: the multiset of all leaf records equals the input multiset.  A
record missing all of the id/chapter fields falls into the single default
bucket `P01/U00/A000` ("Adhyaya 0"), not an `"Unknown"` bucket. -/
theorem hierarchy_total (shlokas : List Shloka) :
    hierMS (groupByHierarchy shlokas) = (shlokas : Multiset Shloka) ∧
      (groupByHierarchy [({} : Shloka)]).map Prod.fst = ["P01"] := by
  constructor
  · have main : ∀ (l : List Shloka) (h : Hierarchy),
        hierMS (l.foldl insertShloka h) = hierMS h + (l : Multiset Shloka) := by
      intro l
      induction l with
      | nil => intro h; simp
      | cons s t ih =>
        intro h
        simp only [List.foldl_cons]
        rw [ih (insertShloka h s), hierMS_insert]
        simp [add_assoc]
    have h := main shlokas []
    simpa [groupByHierarchy, hierMS] using h
  · decide

/-! ## Claim C9: tokenizer round trip

The strategy: the collapse/trim/split/filter chain of the tokenizer equals
`wsTokens` (the maximal whitespace-free runs) applied after the danda
expansion, every `wsTokens` token is nonempty, whitespace free, and either
a standalone danda or danda free, and `wsTokens ∘ expand` maps the
space-joined token list back to itself. -/

theorem jsSplit_ne_nil (p : Char → Bool) : ∀ l : List Char, jsSplit p l ≠ []
  | [] => by simp [jsSplit]
  | c :: cs => by
    simp only [jsSplit]
    by_cases h : p c = true
    · simp [h]
    · simp only [h, if_false]
      cases hs : jsSplit p cs <;> simp

theorem jsSplit_sepfree {p : Char → Bool} :
    ∀ {w : List Char}, (∀ c ∈ w, p c = false) → jsSplit p w = [w]
  | [], _ => rfl
  | c :: ws, h => by
    have hc : ¬(p c = true) := by simp [h c (List.mem_cons_self _ _)]
    have hws := jsSplit_sepfree (fun d hd => h d (List.mem_cons_of_mem _ hd))
    simp [jsSplit, hc, hws]

theorem jsSplit_append_sep {p : Char → Bool} {d : Char} (hd : p d = true) :
    ∀ {w : List Char} (r : List Char), (∀ c ∈ w, p c = false) →
      jsSplit p (w ++ d :: r) = w :: jsSplit p r
  | [], r, _ => by simp [jsSplit, hd]
  | c :: ws, r, h => by
    have hc : ¬(p c = true) := by simp [h c (List.mem_cons_self _ _)]
    have hws := jsSplit_append_sep hd (w := ws) r
      (fun e he => h e (List.mem_cons_of_mem _ he))
    simp only [List.cons_append, jsSplit, List.append_eq, hws]
    simp [hc]

theorem wsTokens_nil : wsTokens [] = [] := rfl

theorem wsTokens_cons_ws {c : Char} (h : jsIsWS c = true) (l : List Char) :
    wsTokens (c :: l) = wsTokens l := by
  simp [wsTokens, jsSplit, h]

theorem wsTokens_sepfree {w : List Char} (hne : w ≠ [])
    (hfree : ∀ c ∈ w, jsIsWS c = false) : wsTokens w = [w] := by
  have : 0 < w.length := List.length_pos.2 hne
  simp [wsTokens, jsSplit_sepfree hfree, this]

theorem wsTokens_block {w : List Char} {d : Char} (r : List Char) (hne : w ≠ [])
    (hfree : ∀ c ∈ w, jsIsWS c = false) (hd : jsIsWS d = true) :
    wsTokens (w ++ d :: r) = w :: wsTokens r := by
  have : 0 < w.length := List.length_pos.2 hne
  simp [wsTokens, jsSplit_append_sep hd r hfree, this]

theorem wsTokens_append_sep (a b : List Char) :
    wsTokens (a ++ ' ' :: b) = wsTokens a ++ wsTokens b := by
  have main : ∀ (n : Nat) (a b : List Char), a.length ≤ n →
      wsTokens (a ++ ' ' :: b) = wsTokens a ++ wsTokens b := by
    intro n
    induction n with
    | zero =>
      intro a b ha
      have : a = [] := List.length_eq_zero.1 (Nat.le_zero.1 ha)
      subst this
      rw [List.nil_append, wsTokens_cons_ws (by decide), wsTokens_nil,
        List.nil_append]
    | succ n ih =>
      intro a b ha
      cases a with
      | nil =>
        rw [List.nil_append, wsTokens_cons_ws (by decide), wsTokens_nil,
          List.nil_append]
      | cons c a0 =>
        by_cases hc : jsIsWS c = true
        · rw [List.cons_append, wsTokens_cons_ws hc, wsTokens_cons_ws hc]
          exact ih a0 b (by simpa using Nat.le_of_succ_le_succ ha)
        · have hcq : (fun x => !jsIsWS x) c = true := by simp [hc]
          have hsplit := List.takeWhile_append_dropWhile
            (p := fun x => !jsIsWS x) (l := c :: a0)
          have hw : (c :: a0).takeWhile (fun x => !jsIsWS x) =
              c :: a0.takeWhile (fun x => !jsIsWS x) :=
            List.takeWhile_cons_of_pos hcq
          have hfree : ∀ e ∈ (c :: a0).takeWhile (fun x => !jsIsWS x),
              jsIsWS e = false := by
            intro e he
            have := List.mem_takeWhile_imp he
            simpa using this
          cases hrest : (c :: a0).dropWhile (fun x => !jsIsWS x) with
          | nil =>
            rw [hrest, List.append_nil] at hsplit
            have hfree2 : ∀ e ∈ c :: a0, jsIsWS e = false := by
              intro e he
              refine hfree e ?_
              rw [hsplit]
              exact he
            rw [wsTokens_block b (by simp) hfree2 (by decide),
              wsTokens_sepfree (by simp) hfree2, List.cons_append,
              List.nil_append]
          | cons d r =>
            have hd : jsIsWS d = true := by
              have h1 : ((c :: a0).dropWhile (fun x => !jsIsWS x)).head? = some d := by
                rw [hrest]; rfl
              have h2 := head?_dropWhile_false h1
              simpa using h2
            have hwne : (c :: a0).takeWhile (fun x => !jsIsWS x) ≠ [] := by
              rw [hw]; simp
            have hlen := congrArg List.length hsplit
            rw [hrest, hw] at hlen
            have hr : r.length ≤ n := by
              simp only [List.length_append, List.length_cons] at hlen ha ⊢
              omega
            rw [← hsplit, hrest, List.append_assoc, List.cons_append,
              wsTokens_block (r ++ ' ' :: b) hwne hfree hd,
              wsTokens_block r hwne hfree hd, ih r b hr, List.cons_append]
  exact main a.length a b (Nat.le_refl _)

theorem wsTokens_sound :
    ∀ (l : List Char), ∀ w ∈ wsTokens l, w ≠ [] ∧ ∀ c ∈ w, jsIsWS c = false := by
  have main : ∀ (n : Nat) (l : List Char), l.length ≤ n →
      ∀ w ∈ wsTokens l, w ≠ [] ∧ ∀ c ∈ w, jsIsWS c = false := by
    intro n
    induction n with
    | zero =>
      intro l hl w hw
      have : l = [] := List.length_eq_zero.1 (Nat.le_zero.1 hl)
      subst this
      simp [wsTokens_nil] at hw
    | succ n ih =>
      intro l hl w hw
      cases l with
      | nil => simp [wsTokens_nil] at hw
      | cons c l0 =>
        by_cases hc : jsIsWS c = true
        · rw [wsTokens_cons_ws hc] at hw
          exact ih l0 (by simpa using Nat.le_of_succ_le_succ hl) w hw
        · have hcq : (fun x => !jsIsWS x) c = true := by simp [hc]
          have hsplit := List.takeWhile_append_dropWhile
            (p := fun x => !jsIsWS x) (l := c :: l0)
          have hw0 : (c :: l0).takeWhile (fun x => !jsIsWS x) =
              c :: l0.takeWhile (fun x => !jsIsWS x) :=
            List.takeWhile_cons_of_pos hcq
          have hfree : ∀ e ∈ (c :: l0).takeWhile (fun x => !jsIsWS x),
              jsIsWS e = false := by
            intro e he
            have := List.mem_takeWhile_imp he
            simpa using this
          cases hrest : (c :: l0).dropWhile (fun x => !jsIsWS x) with
          | nil =>
            rw [hrest, List.append_nil] at hsplit
            have hfree2 : ∀ e ∈ c :: l0, jsIsWS e = false := by
              intro e he
              refine hfree e ?_
              rw [hsplit]
              exact he
            rw [wsTokens_sepfree (by simp) hfree2] at hw
            rcases List.mem_singleton.1 hw with rfl
            exact ⟨by simp, hfree2⟩
          | cons d r =>
            have hd : jsIsWS d = true := by
              have h1 : ((c :: l0).dropWhile (fun x => !jsIsWS x)).head? = some d := by
                rw [hrest]; rfl
              have h2 := head?_dropWhile_false h1
              simpa using h2
            have hwne : (c :: l0).takeWhile (fun x => !jsIsWS x) ≠ [] := by
              rw [hw0]; simp
            have hlen := congrArg List.length hsplit
            rw [hrest, hw0] at hlen
            have hr : r.length ≤ n := by
              simp only [List.length_append, List.length_cons] at hlen hl ⊢
              omega
            rw [← hsplit, hrest, wsTokens_block r hwne hfree hd] at hw
            rcases List.mem_cons.1 hw with rfl | hw2
            · exact ⟨hwne, hfree⟩
            · exact ih r hr w hw2
  exact fun l => main l.length l (Nat.le_refl _)

theorem wsTokens_allws {r : List Char} (h : ∀ c ∈ r, jsIsWS c = true) :
    wsTokens r = [] := by
  induction r with
  | nil => rfl
  | cons c rs ih =>
    rw [wsTokens_cons_ws (h c (List.mem_cons_self _ _))]
    exact ih (fun d hd => h d (List.mem_cons_of_mem _ hd))

/-! ### Collapse and trim lemmas -/

theorem collapse_nonws_append (y : List Char) :
    ∀ (w : List Char) (b : Bool), (∀ c ∈ w, jsIsWS c = false) →
      collapseWSAux b (w ++ y) =
        w ++ collapseWSAux (if w = [] then b else false) y
  | [], b, _ => by simp
  | c :: w0, b, h => by
    have hc : jsIsWS c = false := h c (List.mem_cons_self _ _)
    have hrec := collapse_nonws_append y w0 false
      (fun e he => h e (List.mem_cons_of_mem _ he))
    rw [ite_self] at hrec
    simp [collapseWSAux, hc, hrec]

theorem collapse_mem_nonws {c : Char} (hc : jsIsWS c = false) :
    ∀ (b : Bool) (r : List Char), c ∈ r → c ∈ collapseWSAux b r
  | _, [], hm => by simp at hm
  | b, d :: rs, hm => by
    by_cases hd : jsIsWS d = true
    · have hcr : c ∈ rs := by
        rcases List.mem_cons.1 hm with rfl | h2
        · rw [hd] at hc; simp at hc
        · exact h2
      have hrec := collapse_mem_nonws hc true rs hcr
      cases b
      · rw [show collapseWSAux false (d :: rs) = ' ' :: collapseWSAux true rs by
          simp [collapseWSAux, hd]]
        exact List.mem_cons_of_mem _ hrec
      · rw [show collapseWSAux true (d :: rs) = collapseWSAux true rs by
          simp [collapseWSAux, hd]]
        exact hrec
    · rcases List.mem_cons.1 hm with rfl | h2
      · simp [collapseWSAux, hd]
      · have hrec := collapse_mem_nonws hc false rs h2
        simp [collapseWSAux, hd, hrec]

theorem collapse_allws {b : Bool} {r : List Char}
    (h : ∀ c ∈ collapseWSAux b r, jsIsWS c = true) : ∀ c ∈ r, jsIsWS c = true := by
  intro c hc
  by_contra hne
  have hf : jsIsWS c = false := by revert hne; cases jsIsWS c <;> simp
  have := h c (collapse_mem_nonws hf b r hc)
  rw [hf] at this
  exact Bool.false_ne_true this

theorem collapse_true_head :
    ∀ (r : List Char) {c : Char} {x : List Char},
      collapseWSAux true r = c :: x → jsIsWS c = false
  | [], c, x, h => by simp [collapseWSAux] at h
  | d :: rs, c, x, h => by
    by_cases hd : jsIsWS d = true
    · rw [show collapseWSAux true (d :: rs) = collapseWSAux true rs by
        simp [collapseWSAux, hd]] at h
      exact collapse_true_head rs h
    · rw [show collapseWSAux true (d :: rs) = d :: collapseWSAux false rs by
        simp [collapseWSAux, hd]] at h
      rcases List.cons.injEq .. ▸ h with ⟨rfl, _⟩
      simpa using hd

theorem trimRight_nil_iff {x : List Char} :
    trimRight x = [] ↔ ∀ c ∈ x, jsIsWS c = true := by
  simp [trimRight, List.dropWhile_eq_nil_iff]

theorem trimRight_append (a b : List Char) :
    trimRight (a ++ b) =
      if trimRight b = [] then trimRight a else a ++ trimRight b := by
  unfold trimRight
  rw [List.reverse_append, List.dropWhile_append]
  by_cases hb : (b.reverse.dropWhile jsIsWS).isEmpty = true
  · rw [if_pos hb, if_pos (by
      rw [List.reverse_eq_nil_iff]
      exact List.isEmpty_iff.1 hb)]
  · rw [if_neg hb, if_neg (by
      rw [List.reverse_eq_nil_iff]
      intro h
      exact hb (List.isEmpty_iff.2 h)), List.reverse_append,
      List.reverse_reverse]

theorem trimRight_single (c : Char) :
    trimRight [c] = if jsIsWS c = true then [] else [c] := by
  by_cases hc : jsIsWS c = true <;> simp [trimRight, hc]

theorem trimRight_cons (c : Char) (x : List Char) :
    trimRight (c :: x) =
      if trimRight x = [] then (if jsIsWS c = true then [] else [c])
      else c :: trimRight x := by
  have h := trimRight_append [c] x
  rw [List.singleton_append, trimRight_single] at h
  rw [h]
  by_cases hx : trimRight x = [] <;> simp [hx]

theorem jsTrim_cons_ws {c : Char} (h : jsIsWS c = true) (x : List Char) :
    jsTrim (c :: x) = jsTrim x := by
  unfold jsTrim trimLeft
  rw [List.dropWhile_cons_of_pos (by simp [h])]

theorem jsTrim_wsfree {w : List Char} (h : ∀ c ∈ w, jsIsWS c = false) :
    jsTrim w = w := by
  refine jsTrim_eq_self ?_ ?_
  · intro c hc
    rcases List.head?_eq_some_iff.1 hc with ⟨ys, rfl⟩
    exact h c (List.mem_cons_self _ _)
  · intro c hc
    exact h c (List.mem_of_getLast?_eq_some hc)

theorem sp_false_of_not_ws {x : Char} (h : jsIsWS x = false) : (x == ' ') = false := by
  cases hx : x == ' ' with
  | false => rfl
  | true =>
    rw [beq_iff_eq] at hx
    subst hx
    simp [jsIsWS] at h

/-! ### The tokenizer chain computes the whitespace-free runs -/

theorem chain_eq_wsTokens :
    ∀ (n : Nat) (m : List Char) (b : Bool), m.length ≤ n →
      (jsSplit (fun c => c == ' ') (jsTrim (collapseWSAux b m))).filter
          (fun t => 0 < t.length) = wsTokens m := by
  intro n
  induction n with
  | zero =>
    intro m b hm
    have hnil : m = [] := List.length_eq_zero.1 (Nat.le_zero.1 hm)
    subst hnil
    cases b <;> rfl
  | succ n ih =>
    intro m b hm
    cases m with
    | nil => cases b <;> rfl
    | cons c cs =>
      by_cases hc : jsIsWS c = true
      · have hlen : cs.length ≤ n := by
          simp only [List.length_cons] at hm
          omega
        rw [wsTokens_cons_ws hc]
        cases b
        · rw [show collapseWSAux false (c :: cs) = ' ' :: collapseWSAux true cs by
            simp [collapseWSAux, hc]]
          rw [jsTrim_cons_ws (by decide)]
          exact ih cs true hlen
        · rw [show collapseWSAux true (c :: cs) = collapseWSAux true cs by
            simp [collapseWSAux, hc]]
          exact ih cs true hlen
      · have hcq : (fun x => !jsIsWS x) c = true := by simp [hc]
        have hsplit := List.takeWhile_append_dropWhile
          (p := fun x => !jsIsWS x) (l := c :: cs)
        have hw0 : (c :: cs).takeWhile (fun x => !jsIsWS x) =
            c :: cs.takeWhile (fun x => !jsIsWS x) :=
          List.takeWhile_cons_of_pos hcq
        have hfree : ∀ e ∈ (c :: cs).takeWhile (fun x => !jsIsWS x),
            jsIsWS e = false := by
          intro e he
          have := List.mem_takeWhile_imp he
          simpa using this
        have hwne : (c :: cs).takeWhile (fun x => !jsIsWS x) ≠ [] := by
          rw [hw0]; simp
        have hfree_sp : ∀ e ∈ (c :: cs).takeWhile (fun x => !jsIsWS x),
            (e == ' ') = false := fun e he => sp_false_of_not_ws (hfree e he)
        cases hrest : (c :: cs).dropWhile (fun x => !jsIsWS x) with
        | nil =>
          rw [hrest, List.append_nil] at hsplit
          have hfree2 : ∀ e ∈ c :: cs, jsIsWS e = false := by
            intro e he
            refine hfree e ?_
            rw [hsplit]
            exact he
          have hcol : collapseWSAux b (c :: cs) = c :: cs := by
            have h2 := collapse_nonws_append [] (c :: cs) b hfree2
            simpa [collapseWSAux] using h2
          rw [hcol, jsTrim_wsfree hfree2,
            jsSplit_sepfree (fun e he => sp_false_of_not_ws (hfree2 e he)),
            wsTokens_sepfree (by simp) hfree2]
          simp
        | cons d r =>
          have hd : jsIsWS d = true := by
            have h1 : ((c :: cs).dropWhile (fun x => !jsIsWS x)).head? = some d := by
              rw [hrest]; rfl
            have h2 := head?_dropWhile_false h1
            simpa using h2
          have hlenr : r.length ≤ n := by
            have hlen := congrArg List.length hsplit
            rw [hrest, hw0] at hlen
            simp only [List.length_append, List.length_cons] at hlen hm ⊢
            omega
          rw [← hsplit, hrest]
          have hcol : collapseWSAux b
              ((c :: cs).takeWhile (fun x => !jsIsWS x) ++ d :: r) =
              (c :: cs).takeWhile (fun x => !jsIsWS x) ++
                ' ' :: collapseWSAux true r := by
            rw [collapse_nonws_append (d :: r) _ b hfree, if_neg hwne]
            congr 1
            simp [collapseWSAux, hd]
          rw [hcol, wsTokens_block r hwne hfree hd]
          have htr : trimRight ((c :: cs).takeWhile (fun x => !jsIsWS x)) =
              (c :: cs).takeWhile (fun x => !jsIsWS x) :=
            trimRight_eq_self (fun e he => hfree e (List.mem_of_getLast?_eq_some he))
          have htl : trimLeft ((c :: cs).takeWhile (fun x => !jsIsWS x) ++
              ' ' :: collapseWSAux true r) =
              (c :: cs).takeWhile (fun x => !jsIsWS x) ++
                ' ' :: collapseWSAux true r := by
            rw [hw0]
            unfold trimLeft
            rw [List.cons_append, List.dropWhile_cons_of_neg (by simp [hc])]
          have hjt : jsTrim ((c :: cs).takeWhile (fun x => !jsIsWS x) ++
              ' ' :: collapseWSAux true r) =
              if trimRight (' ' :: collapseWSAux true r) = [] then
                (c :: cs).takeWhile (fun x => !jsIsWS x)
              else
                (c :: cs).takeWhile (fun x => !jsIsWS x) ++
                  trimRight (' ' :: collapseWSAux true r) := by
            unfold jsTrim
            rw [htl, trimRight_append, htr]
          by_cases hy : trimRight (' ' :: collapseWSAux true r) = []
          · have hally := trimRight_nil_iff.1 hy
            have hallr : ∀ e ∈ r, jsIsWS e = true :=
              collapse_allws (b := true)
                (fun e he => hally e (List.mem_cons_of_mem _ he))
            rw [hjt, if_pos hy, jsSplit_sepfree hfree_sp, wsTokens_allws hallr,
              List.filter_cons_of_pos (by simpa using List.length_pos.2 hwne)]
            rfl
          · rw [hjt, if_neg hy]
            have hy2 : trimRight (' ' :: collapseWSAux true r) =
                ' ' :: trimRight (collapseWSAux true r) := by
              rw [trimRight_cons]
              by_cases hty : trimRight (collapseWSAux true r) = []
              · exfalso
                apply hy
                rw [trimRight_cons, if_pos hty, if_pos (by decide)]
              · rw [if_neg hty]
            rw [hy2,
              jsSplit_append_sep (by decide) (trimRight (collapseWSAux true r))
                hfree_sp,
              List.filter_cons_of_pos (by
                simpa using List.length_pos.2 hwne)]
            congr 1
            have htly : trimLeft (collapseWSAux true r) = collapseWSAux true r := by
              cases hy3 : collapseWSAux true r with
              | nil => rfl
              | cons e es =>
                unfold trimLeft
                rw [List.dropWhile_cons_of_neg (by simp [collapse_true_head r hy3])]
            have heq : trimRight (collapseWSAux true r) =
                jsTrim (collapseWSAux true r) := by
              unfold jsTrim
              rw [htly]
            rw [heq]
            exact ih r true hlenr

/-! ### The danda expansion -/

theorem replaceDanda2_expand (c : Char) :
    replaceDanda2 (if c == '।' then [' ', '।', ' '] else [c]) = expandDanda c := by
  by_cases h1 : c = '।'
  · subst h1; rfl
  · by_cases h2 : c = '॥'
    · subst h2; rfl
    · simp [replaceDanda2, expandDanda, h1, h2]

theorem replace_eq_expand : ∀ l : List Char,
    replaceDanda2 (replaceDanda1 l) = l.flatMap expandDanda
  | [] => rfl
  | c :: cs => by
    have ih := replace_eq_expand cs
    show replaceDanda2 ((c :: cs).flatMap
        (fun c => if c == '।' then [' ', '।', ' '] else [c])) = _
    rw [List.flatMap_cons]
    show replaceDanda2 ((if c == '।' then [' ', '।', ' '] else [c]) ++
        replaceDanda1 cs) = _
    rw [show ∀ a b : List Char, replaceDanda2 (a ++ b) =
        replaceDanda2 a ++ replaceDanda2 b from
      fun a b => List.flatMap_append a b _, replaceDanda2_expand, ih,
      List.flatMap_cons]

theorem tokenize_eq_wsTokens (text : List Char) :
    tokenize text = wsTokens (text.flatMap expandDanda) := by
  unfold tokenize collapseWS
  rw [replace_eq_expand]
  exact chain_eq_wsTokens (text.flatMap expandDanda).length _ false (Nat.le_refl _)

theorem expandDanda_single {c : Char} (h1 : c ≠ '।') (h2 : c ≠ '॥') :
    expandDanda c = [c] := by
  simp [expandDanda, h1, h2]

theorem expand_dandafree {w : List Char} (h : ∀ c ∈ w, c ≠ '।' ∧ c ≠ '॥') :
    w.flatMap expandDanda = w :=
  flatMap_singleton_id (fun c hc => expandDanda_single (h c hc).1 (h c hc).2)

theorem ws_not_danda {c : Char} (h : jsIsWS c = true) : c ≠ '।' ∧ c ≠ '॥' := by
  constructor <;> rintro rfl <;> simp [jsIsWS] at h

theorem wsTokens_expand_danda :
    ∀ (n : Nat) (t : List Char), t.length ≤ n →
      ∀ w ∈ wsTokens (t.flatMap expandDanda),
        w = ['।'] ∨ w = ['॥'] ∨ ∀ c ∈ w, c ≠ '।' ∧ c ≠ '॥' := by
  intro n
  induction n with
  | zero =>
    intro t ht w hw
    have : t = [] := List.length_eq_zero.1 (Nat.le_zero.1 ht)
    subst this
    simp [wsTokens_nil] at hw
  | succ n ih =>
    intro t ht w hw
    cases t with
    | nil => simp [wsTokens_nil] at hw
    | cons c t0 =>
      have hlen0 : t0.length ≤ n := by
        simp only [List.length_cons] at ht
        omega
      by_cases hd1 : c = '।'
      · subst hd1
        rw [List.flatMap_cons,
          show expandDanda '।' = [' ', '।', ' '] from rfl,
          show ([' ', '।', ' '] : List Char) ++ t0.flatMap expandDanda =
            ' ' :: (['।'] ++ ' ' :: t0.flatMap expandDanda) from rfl,
          wsTokens_cons_ws (by decide),
          wsTokens_block (t0.flatMap expandDanda) (by simp) (by decide)
            (by decide)] at hw
        rcases List.mem_cons.1 hw with rfl | hw2
        · exact Or.inl rfl
        · exact ih t0 hlen0 w hw2
      · by_cases hd2 : c = '॥'
        · subst hd2
          rw [List.flatMap_cons,
            show expandDanda '॥' = [' ', '॥', ' '] from rfl,
            show ([' ', '॥', ' '] : List Char) ++ t0.flatMap expandDanda =
              ' ' :: (['॥'] ++ ' ' :: t0.flatMap expandDanda) from rfl,
            wsTokens_cons_ws (by decide),
            wsTokens_block (t0.flatMap expandDanda) (by simp) (by decide)
              (by decide)] at hw
          rcases List.mem_cons.1 hw with rfl | hw2
          · exact Or.inr (Or.inl rfl)
          · exact ih t0 hlen0 w hw2
        · by_cases hws : jsIsWS c = true
          · rw [List.flatMap_cons, expandDanda_single hd1 hd2,
              List.singleton_append, wsTokens_cons_ws hws] at hw
            exact ih t0 hlen0 w hw
          · -- a maximal good run starts here
            have hgood : (fun x => !jsIsWS x && !(x == '।') && !(x == '॥')) c
                = true := by
              simp [hws, hd1, hd2]
            have hsplit := List.takeWhile_append_dropWhile
              (p := fun x => !jsIsWS x && !(x == '।') && !(x == '॥'))
              (l := c :: t0)
            have hw0 : (c :: t0).takeWhile
                (fun x => !jsIsWS x && !(x == '।') && !(x == '॥')) =
                c :: t0.takeWhile
                  (fun x => !jsIsWS x && !(x == '।') && !(x == '॥')) :=
              List.takeWhile_cons_of_pos hgood
            have hmem : ∀ e ∈ (c :: t0).takeWhile
                (fun x => !jsIsWS x && !(x == '।') && !(x == '॥')),
                jsIsWS e = false ∧ e ≠ '।' ∧ e ≠ '॥' := by
              intro e he
              have h2 := List.mem_takeWhile_imp he
              simp only [Bool.and_eq_true, Bool.not_eq_true', beq_eq_false_iff_ne,
                ne_eq] at h2
              exact ⟨h2.1.1, h2.1.2, h2.2⟩
            have hwne : (c :: t0).takeWhile
                (fun x => !jsIsWS x && !(x == '।') && !(x == '॥')) ≠ [] := by
              rw [hw0]; simp
            have hwfree : ∀ e ∈ (c :: t0).takeWhile
                (fun x => !jsIsWS x && !(x == '।') && !(x == '॥')),
                jsIsWS e = false := fun e he => (hmem e he).1
            have hwdanda : ∀ e ∈ (c :: t0).takeWhile
                (fun x => !jsIsWS x && !(x == '।') && !(x == '॥')),
                e ≠ '।' ∧ e ≠ '॥' := fun e he => (hmem e he).2
            have hexp : ((c :: t0).takeWhile
                (fun x => !jsIsWS x && !(x == '।') && !(x == '॥'))).flatMap
                  expandDanda =
                (c :: t0).takeWhile
                  (fun x => !jsIsWS x && !(x == '।') && !(x == '॥')) :=
              expand_dandafree hwdanda
            cases hrest : (c :: t0).dropWhile
                (fun x => !jsIsWS x && !(x == '।') && !(x == '॥')) with
            | nil =>
              rw [hrest, List.append_nil] at hsplit
              rw [← hsplit, hexp, wsTokens_sepfree hwne hwfree] at hw
              rcases List.mem_singleton.1 hw with rfl
              exact Or.inr (Or.inr hwdanda)
            | cons d r =>
              have hdbad : (!jsIsWS d && !(d == '।') && !(d == '॥')) = false := by
                have h1 : ((c :: t0).dropWhile
                    (fun x => !jsIsWS x && !(x == '।') && !(x == '॥'))).head? =
                    some d := by rw [hrest]; rfl
                exact head?_dropWhile_false h1
              have hlenr : r.length ≤ n := by
                have hlen := congrArg List.length hsplit
                rw [hrest, hw0] at hlen
                simp only [List.length_append, List.length_cons] at hlen ht ⊢
                omega
              rw [← hsplit, hrest, List.flatMap_append, hexp,
                List.flatMap_cons] at hw
              by_cases hdws : jsIsWS d = true
              · rcases ws_not_danda hdws with ⟨hdn1, hdn2⟩
                rw [expandDanda_single hdn1 hdn2, List.singleton_append] at hw
                rw [wsTokens_block (r.flatMap expandDanda) hwne hwfree hdws] at hw
                rcases List.mem_cons.1 hw with rfl | hw2
                · exact Or.inr (Or.inr hwdanda)
                · exact ih r hlenr w hw2
              · have hdd : d = '।' ∨ d = '॥' := by
                  simp only [Bool.and_eq_false_iff, Bool.not_eq_false,
                    Bool.not_eq_false', beq_iff_eq] at hdbad
                  rcases hdbad with hdbad | h2
                  · rcases hdbad with h1 | h1
                    · rw [h1] at hdws; simp at hdws
                    · exact Or.inl h1
                  · exact Or.inr h2
                have hblock : ∀ dd : Char, jsIsWS dd = false →
                    expandDanda d = [' ', dd, ' '] →
                    (w = (c :: t0).takeWhile
                      (fun x => !jsIsWS x && !(x == '।') && !(x == '॥')) ∨
                      w = [dd] ∨ w ∈ wsTokens (r.flatMap expandDanda)) := by
                  intro dd hddws hdexp
                  rw [hdexp] at hw
                  simp only [List.cons_append, List.nil_append] at hw
                  rw [wsTokens_block (dd :: ' ' :: r.flatMap expandDanda)
                    hwne hwfree (by decide)] at hw
                  have hb2 := wsTokens_block (w := [dd]) (d := ' ')
                    (r.flatMap expandDanda) (by simp)
                    (by intro e he; rcases List.mem_singleton.1 he with rfl;
                        exact hddws)
                    (by decide)
                  rw [List.singleton_append] at hb2
                  rw [hb2] at hw
                  rcases List.mem_cons.1 hw with rfl | hw2
                  · exact Or.inl rfl
                  · rcases List.mem_cons.1 hw2 with rfl | hw3
                    · exact Or.inr (Or.inl rfl)
                    · exact Or.inr (Or.inr hw3)
                rcases hdd with rfl | rfl
                · rcases hblock '।' (by decide) rfl with h1 | h1 | h1
                  · subst h1; exact Or.inr (Or.inr hwdanda)
                  · subst h1; exact Or.inl rfl
                  · exact ih r hlenr w h1
                · rcases hblock '॥' (by decide) rfl with h1 | h1 | h1
                  · subst h1; exact Or.inr (Or.inr hwdanda)
                  · subst h1; exact Or.inr (Or.inl rfl)
                  · exact ih r hlenr w h1

/-! ### Round trip assembly -/

theorem token_expand_single {w : List Char} (hne : w ≠ [])
    (hfree : ∀ c ∈ w, jsIsWS c = false)
    (hP : w = ['।'] ∨ w = ['॥'] ∨ ∀ c ∈ w, c ≠ '।' ∧ c ≠ '॥') :
    wsTokens (w.flatMap expandDanda) = [w] := by
  rcases hP with rfl | rfl | hdf
  · decide
  · decide
  · rw [expand_dandafree hdf]
    exact wsTokens_sepfree hne hfree

theorem wsTokens_expand_join :
    ∀ ws : List (List Char),
      (∀ w ∈ ws, w ≠ [] ∧ (∀ c ∈ w, jsIsWS c = false) ∧
        (w = ['।'] ∨ w = ['॥'] ∨ ∀ c ∈ w, c ≠ '।' ∧ c ≠ '॥')) →
      wsTokens ((jsJoinSp ws).flatMap expandDanda) = ws
  | [], _ => rfl
  | [w], h => by
    rcases h w (List.mem_singleton.2 rfl) with ⟨h1, h2, h3⟩
    exact token_expand_single h1 h2 h3
  | w :: x :: t, h => by
    rcases h w (List.mem_cons_self _ _) with ⟨h1, h2, h3⟩
    have hrec := wsTokens_expand_join (x :: t)
      (fun v hv => h v (List.mem_cons_of_mem _ hv))
    rw [show jsJoinSp (w :: x :: t) = w ++ ' ' :: jsJoinSp (x :: t) from rfl,
      List.flatMap_append, List.flatMap_cons,
      show expandDanda ' ' = [' '] from rfl, List.singleton_append,
      wsTokens_append_sep, token_expand_single h1 h2 h3, hrec,
      List.singleton_append]

/-- Claim C9: tokenizer round trip and determinism.  Joining the token
sequence with single spaces and re-tokenizing yields the same token
sequence, and tokenizing is a pure function of the text. -/
theorem tokenize_roundtrip (text : List Char) :
    tokenize (jsJoinSp (tokenize text)) = tokenize text ∧
      tokenize text = tokenize text := by
  refine ⟨?_, rfl⟩
  rw [tokenize_eq_wsTokens (jsJoinSp (tokenize text))]
  refine wsTokens_expand_join (tokenize text) ?_
  intro w hw
  rw [tokenize_eq_wsTokens text] at hw
  rcases wsTokens_sound _ w hw with ⟨h1, h2⟩
  exact ⟨h1, h2, wsTokens_expand_danda text.length text (Nat.le_refl _) w hw⟩

end MBH
